import Mathlib

/-!
Verification of the People Registry repository and tool layer.

The development models the repository (src/db/repository.ts), its document
storage port, and the tool boundary (tools/get.ts, tools/delete.ts and the
upsert tool) as pure Lean functions with explicit state passing.  Strings are
handled at the character-list level so that every definition is executable by
the kernel; timestamps are natural numbers passed explicitly as a `now`
argument, and the randomly generated id of `create` is an explicit `freshId`
argument.
-/

namespace People

/-- Character-wise lowercasing, modelling String.prototype.toLowerCase on the
character list of a string. -/
def lowerChars (l : List Char) : List Char := l.map Char.toLower

/-- Remove leading and trailing whitespace from a character list, modelling
String.prototype.trim. -/
def trimChars (l : List Char) : List Char :=
  ((l.dropWhile Char.isWhitespace).reverse.dropWhile Char.isWhitespace).reverse

/-- The trim operation lifted back to strings. -/
def strTrim (s : String) : String := ⟨trimChars s.data⟩

/-- Normalize a name for searching: lowercase then trim
(repository.ts, normalizeName). -/
def normalizeName (name : String) : String := ⟨trimChars (lowerChars name.data)⟩

/-- Substring test on character lists, modelling the storage port's
case-sensitive $contains predicate applied to already-normalized strings. -/
def strContains (hay pat : List Char) : Bool :=
  match hay with
  | [] => pat.isEmpty
  | _ :: t => pat.isPrefixOf hay || strContains t pat

/-- Lexicographic comparison of character lists, modelling the storage
port's ascending string sort order. -/
def charListLe : List Char → List Char → Bool
  | [], _ => true
  | _ :: _, [] => false
  | a :: as, b :: bs => if a = b then charListLe as bs else decide (a < b)

/-- Metadata stored about a person (types.ts, PersonMetadata): five
recognized optional string fields plus arbitrary extra key/value pairs. -/
structure PersonMetadata where
  relationship : Option String
  email : Option String
  phone : Option String
  birthday : Option String
  workplace : Option String
  extra : List (String × String)
deriving DecidableEq, Repr

/-- The empty metadata object. -/
def emptyMetadata : PersonMetadata := ⟨none, none, none, none, none, []⟩

/-- View an optional metadata object as a metadata object, treating a missing
object as empty (the spread of existing.metadata or empty object). -/
def metaOf (m : Option PersonMetadata) : PersonMetadata := m.getD emptyMetadata

/-- A person document as stored in the collection
(repository.ts, PersonDocument / types.ts, Person). -/
structure Person where
  id : String
  name : String
  normalizedName : String
  description : Option String
  metadata : Option PersonMetadata
  createdAt : Nat
  updatedAt : Nat
deriving DecidableEq, Repr

/-- The state of the people collection in the document store. -/
structure Store where
  docs : List Person
deriving DecidableEq, Repr

/-- Well-formedness of a store: the storage port is keyed by id, so ids are
pairwise distinct. -/
def Store.WF (s : Store) : Prop := (s.docs.map Person.id).Nodup

instance (s : Store) : Decidable s.WF := List.nodupDecidable _

/-- Point lookup by key in the document collection (StorageAPI.get). -/
def Storage.get (docs : List Person) (i : String) : Option Person :=
  docs.find? (fun d => decide (d.id = i))

/-- Full write by key: replaces any existing value at that key
(StorageAPI.put). -/
def Storage.put (docs : List Person) (i : String) (doc : Person) : List Person :=
  docs.filter (fun d => decide (d.id ≠ i)) ++ [doc]

/-- Delete by key, reporting whether a value existed at that key
(StorageAPI.delete). -/
def Storage.del (docs : List Person) (i : String) : Bool × List Person :=
  (docs.any (fun d => decide (d.id = i)), docs.filter (fun d => decide (d.id ≠ i)))

/-- Ordering of person documents by their raw display name, as used by the
storage port's sort on the name field. -/
def nameRel (a b : Person) : Prop := charListLe a.name.data b.name.data = true

instance : DecidableRel nameRel := fun _ _ => instDecidableEqBool _ _

/-- Sort documents ascending by raw display name (the storage port's
sort on name asc). -/
def sortByName (l : List Person) : List Person := List.insertionSort nameRel l

/-- Predicate-based find with sort, limit and offset (StorageAPI.find):
filter, sort ascending by name, skip offset, take limit. -/
def Storage.find (docs : List Person) (pred : Person → Bool) (lim off : Nat) : List Person :=
  ((sortByName (docs.filter pred)).drop off).take lim

/-- Input for creating or updating a person (types.ts, PersonInput): every
field is optional; a missing field is an absent key. -/
structure PersonInput where
  name : Option String
  description : Option String
  metadata : Option PersonMetadata
deriving DecidableEq, Repr

/-- Input for create and upsert, where the name is required
(PersonInput with required name). -/
structure CreateInput where
  name : String
  description : Option String
  metadata : Option PersonMetadata
deriving DecidableEq, Repr

/-- A create/upsert input viewed as a plain person input, as the upsert
method passes its input on to update. -/
def toPersonInput (c : CreateInput) : PersonInput := ⟨some c.name, c.description, c.metadata⟩

/-- List people with optional query filtering and pagination
(PeopleRepository.list).  A present non-empty query is normalized and matched
as a substring of normalizedName; a missing or empty query matches all. -/
def list (s : Store) (query : Option String) (lim off : Nat) : List Person :=
  match query with
  | some q =>
    if q = "" then Storage.find s.docs (fun _ => true) lim off
    else
      Storage.find s.docs
        (fun d => strContains d.normalizedName.data (normalizeName q).data) lim off
  | none => Storage.find s.docs (fun _ => true) lim off

/-- Get a person by id (PeopleRepository.getById). -/
def getById (s : Store) (i : String) : Option Person := Storage.get s.docs i

/-- Get a person by name: exact match on the normalized name, first match
wins (PeopleRepository.getByName via StorageAPI.findOne). -/
def getByName (s : Store) (n : String) : Option Person :=
  s.docs.find? (fun d => decide (d.normalizedName = normalizeName n))

/-- Create a new person (PeopleRepository.create): fresh id, normalized name
computed from the input name, createdAt = updatedAt = now, no name-collision
check. -/
def create (s : Store) (freshId : String) (now : Nat) (input : CreateInput) : Person × Store :=
  let doc : Person :=
    ⟨freshId, input.name, normalizeName input.name, input.description, input.metadata, now, now⟩
  (doc, ⟨Storage.put s.docs freshId doc⟩)

/-- The document built by PeopleRepository.update from the existing record
and the input.  The name merge uses nullish coalescing for the name but
truthiness for the normalized name; the description and metadata merge on
key presence. -/
def mergeDoc (existing : Person) (input : PersonInput) (now : Nat) : Person :=
  ⟨existing.id,
   input.name.getD existing.name,
   (match input.name with
    | some n => if n = "" then existing.normalizedName else normalizeName n
    | none => existing.normalizedName),
   (match input.description with
    | some d => some d
    | none => existing.description),
   (match input.metadata with
    | some m => some m
    | none => existing.metadata),
   existing.createdAt,
   now⟩

/-- Update an existing person (PeopleRepository.update): absent id is a
normal none result; otherwise the merged document replaces the stored one. -/
def update (s : Store) (i : String) (now : Nat) (input : PersonInput) :
    Option (Person × Store) :=
  match getById s i with
  | none => none
  | some existing =>
    let doc := mergeDoc existing input now
    some (doc, ⟨Storage.put s.docs i doc⟩)

/-- Create or update a person by name (PeopleRepository.upsert): look up by
normalized name, update the found record or create a new one.  The none
result corresponds to the impossible non-null assertion on update. -/
def upsert (s : Store) (freshId : String) (now : Nat) (input : CreateInput) :
    Option (Person × Store × Bool) :=
  match getByName s input.name with
  | some existing =>
    match update s existing.id now (toPersonInput input) with
    | some (p, s2) => some (p, s2, false)
    | none => none
  | none =>
    let r := create s freshId now input
    some (r.1, r.2, true)

/-- Delete a person by id (PeopleRepository.delete): false when absent. -/
def delete (s : Store) (i : String) : Bool × Store :=
  match getById s i with
  | none => (false, s)
  | some _ =>
    let r := Storage.del s.docs i
    (r.1, ⟨r.2⟩)

/-- Delete a person by name (PeopleRepository.deleteByName): resolve via
getByName, then delete the resolved id. -/
def deleteByName (s : Store) (n : String) : Bool × Store :=
  match getByName s n with
  | none => (false, s)
  | some existing =>
    let r := Storage.del s.docs existing.id
    (r.1, ⟨r.2⟩)

/-! The tool boundary.  Tool requests arrive as flat parameter records whose
fields are all optional; JavaScript truthiness of an optional string (present
and non-empty) guards every branch. -/

/-- Result of a tool execution (extension-api ToolResult): either a success
payload or a human-readable error string. -/
inductive ToolResult (α : Type) where
  | ok (data : α)
  | error (msg : String)
deriving DecidableEq, Repr

/-- Whether a tool result is a success. -/
def ToolResult.isOk {α : Type} : ToolResult α → Bool
  | .ok _ => true
  | .error _ => false

/-- Truthiness of an optional string parameter: present and non-empty. -/
def truthy : Option String → Bool
  | none => false
  | some s => decide (s ≠ "")

/-- Parameters of the people_upsert tool (upsert.ts, UpsertParams). -/
structure UpsertParams where
  id : Option String
  name : Option String
  description : Option String
  relationship : Option String
  email : Option String
  phone : Option String
  birthday : Option String
  workplace : Option String
deriving DecidableEq, Repr

/-- Success payload of the people_upsert tool. -/
structure UpsertData where
  id : String
  name : String
  description : Option String
  metadata : Option PersonMetadata
  created : Bool
  message : String
deriving DecidableEq, Repr

/-- The create-path name validation of the upsert tool: name missing, empty,
or whitespace-only after trimming. -/
def nameMissing : Option String → Bool
  | none => true
  | some s => decide (s = "") || decide (strTrim s = "")

/-- Trim a provided field value, turning an empty result into a cleared
field (the v.trim() or undefined idiom). -/
def trimOrNone (v : String) : Option String :=
  if strTrim v = "" then none else some (strTrim v)

/-- Whether at least one recognized metadata field was provided in the
request (upsert.ts, hasMetadataFields). -/
def hasMetadataFields (p : UpsertParams) : Bool :=
  p.relationship.isSome || p.email.isSome || p.phone.isSome ||
    p.birthday.isSome || p.workplace.isSome

/-- Merge the request's recognized metadata fields into the existing
metadata (upsert.ts, id path): start from a copy of the existing metadata,
then overwrite exactly the fields that were provided, clearing a field
whose trimmed value is empty.  Extra keys are carried over by the copy. -/
def mergeMetadata (existing : Option PersonMetadata) (p : UpsertParams) : PersonMetadata :=
  let m0 := metaOf existing
  let m1 := match p.relationship with
    | some v => { m0 with relationship := trimOrNone v }
    | none => m0
  let m2 := match p.email with
    | some v => { m1 with email := trimOrNone v }
    | none => m1
  let m3 := match p.phone with
    | some v => { m2 with phone := trimOrNone v }
    | none => m2
  let m4 := match p.birthday with
    | some v => { m3 with birthday := trimOrNone v }
    | none => m3
  match p.workplace with
    | some v => { m4 with workplace := trimOrNone v }
    | none => m4

/-- Metadata built on the create/upsert-by-name path (upsert.ts): only
fields whose trimmed value is non-empty are set. -/
def buildCreateMetadata (p : UpsertParams) : PersonMetadata :=
  ⟨p.relationship.bind trimOrNone,
   p.email.bind trimOrNone,
   p.phone.bind trimOrNone,
   p.birthday.bind trimOrNone,
   p.workplace.bind trimOrNone,
   []⟩

/-- Whether a built metadata object has at least one key
(Object.keys(metadata).length > 0). -/
def metadataNonEmpty (m : PersonMetadata) : Bool :=
  m.relationship.isSome || m.email.isSome || m.phone.isSome ||
    m.birthday.isSome || m.workplace.isSome || !m.extra.isEmpty

/-- Execution of the people_upsert tool (upsert.ts, execute).  Returns the
tool result together with the resulting store; the none result corresponds
to the impossible non-null assertion on update. -/
def upsertToolExecute (s : Store) (freshId : String) (now : Nat) (p : UpsertParams) :
    Option (ToolResult UpsertData × Store) :=
  if !truthy p.id && nameMissing p.name then
    some (ToolResult.error "Name is required when not updating by ID", s)
  else if truthy p.id then
    let i := p.id.getD ""
    match getById s i with
    | none => some (ToolResult.error ("No person found with ID \"" ++ i ++ "\""), s)
    | some existing =>
      let merged := mergeMetadata existing.metadata p
      match update s i now
          ⟨p.name.map strTrim, p.description,
           if hasMetadataFields p then some merged else none⟩ with
      | some (updated, s2) =>
        some (ToolResult.ok
          ⟨updated.id, updated.name, updated.description, updated.metadata, false,
           "Updated information for \"" ++ updated.name ++ "\""⟩, s2)
      | none => none
  else
    let nm := p.name.getD ""
    let md := buildCreateMetadata p
    match upsert s freshId now
        ⟨strTrim nm, p.description,
         if metadataNonEmpty md then some md else none⟩ with
    | some (person, s2, created) =>
      some (ToolResult.ok
        ⟨person.id, person.name, person.description, person.metadata, created,
         if created then "Added \"" ++ person.name ++ "\" to the registry"
         else "Updated information for \"" ++ person.name ++ "\""⟩, s2)
    | none => none

/-- Parameters of the people_get tool (get.ts, GetParams). -/
structure GetParams where
  id : Option String
  name : Option String
deriving DecidableEq, Repr

/-- Parameters of the people_delete tool (delete.ts, DeleteParams). -/
structure DeleteParams where
  id : Option String
  name : Option String
deriving DecidableEq, Repr

/-- Success payload of the people_get tool: person fields plus the
recognized metadata fields flattened in, each included only when defined. -/
structure GetData where
  id : String
  name : String
  description : Option String
  createdAt : Nat
  updatedAt : Nat
  relationship : Option String
  email : Option String
  phone : Option String
  birthday : Option String
  workplace : Option String
deriving DecidableEq, Repr

/-- Flatten a person into the get tool's payload. -/
def personToGetData (p : Person) : GetData :=
  let m := metaOf p.metadata
  ⟨p.id, p.name, p.description, p.createdAt, p.updatedAt,
   m.relationship, m.email, m.phone, m.birthday, m.workplace⟩

/-- Execution of the people_get tool (get.ts, execute): a truthy id resolves
by id, otherwise a truthy name resolves by name. -/
def getToolExecute (s : Store) (p : GetParams) : ToolResult GetData :=
  if !truthy p.id && !truthy p.name then
    ToolResult.error "Either id or name must be provided"
  else
    let person :=
      if truthy p.id then getById s (p.id.getD "")
      else if truthy p.name then getByName s (p.name.getD "")
      else none
    match person with
    | none =>
      ToolResult.error
        (if truthy p.id then "No person found with ID \"" ++ p.id.getD "" ++ "\""
         else "No person found with name \"" ++ p.name.getD "" ++ "\"")
    | some person => ToolResult.ok (personToGetData person)

/-- Success payload of the people_delete tool. -/
structure DeleteData where
  deleted : Bool
  message : String
deriving DecidableEq, Repr

/-- Execution of the people_delete tool (delete.ts, execute): a truthy id
resolves by id, otherwise a truthy name resolves by name; the success
message displays the name when one was given. -/
def deleteToolExecute (s : Store) (p : DeleteParams) : ToolResult DeleteData × Store :=
  if !truthy p.id && !truthy p.name then
    (ToolResult.error "Either id or name must be provided", s)
  else
    let r :=
      if truthy p.id then delete s (p.id.getD "")
      else if truthy p.name then deleteByName s (p.name.getD "")
      else (false, s)
    if !r.1 then
      (ToolResult.error
        (if truthy p.id then "No person found with ID \"" ++ p.id.getD "" ++ "\""
         else "No person found with name \"" ++ p.name.getD "" ++ "\""), r.2)
    else
      (ToolResult.ok
        ⟨true, "Successfully removed " ++
          (if truthy p.name then p.name.getD "" else p.id.getD "") ++
          " from the registry"⟩, r.2)

/-! Concrete fixtures used by examples and witnesses. -/

/-- Sample metadata: a friend with an email and an unrecognized extra key. -/
def mariaMeta : PersonMetadata :=
  ⟨some "friend", some "maria@example.com", none, none, none, [("nickname", "Ria")]⟩

/-- Sample person Maria. -/
def mariaP : Person := ⟨"id_maria", "Maria", "maria", some "met at work", some mariaMeta, 1, 1⟩

/-- Sample person Mark. -/
def markP : Person := ⟨"id_mark", "Mark", "mark", none, none, 2, 2⟩

/-- Sample person Zoe. -/
def zoeP : Person := ⟨"id_zoe", "Zoe", "zoe", none, none, 3, 3⟩

/-- Sample store holding Zoe, Maria and Mark (deliberately unsorted). -/
def marStore : Store := ⟨[zoeP, mariaP, markP]⟩

/-! Helper lemmas about the storage model. -/

lemma find?_id_of_nodup {docs : List Person} (hnd : (docs.map Person.id).Nodup)
    {ex : Person} (hmem : ex ∈ docs) :
    docs.find? (fun d => decide (d.id = ex.id)) = some ex := by
  induction docs with
  | nil => cases hmem
  | cons h t ih =>
    rw [List.map_cons, List.nodup_cons] at hnd
    rcases List.mem_cons.mp hmem with rfl | hmt
    · simp [List.find?_cons]
    · have hne : h.id ≠ ex.id := by
        intro he
        exact hnd.1 (he ▸ List.mem_map_of_mem Person.id hmt)
      simp [List.find?_cons, hne, ih hnd.2 hmt]

lemma getById_of_mem {s : Store} (hwf : s.WF) {ex : Person} (hmem : ex ∈ s.docs) :
    getById s ex.id = some ex := find?_id_of_nodup hwf hmem

lemma find?_filter_ne (docs : List Person) (i : String) :
    (docs.filter (fun d => decide (d.id ≠ i))).find? (fun d => decide (d.id = i)) = none := by
  rw [List.find?_eq_none]
  intro x hx
  have hne := (List.mem_filter.mp hx).2
  simp only [decide_eq_true_eq] at hne ⊢
  exact hne

lemma get_put_same (docs : List Person) (i : String) (doc : Person) (hdoc : doc.id = i) :
    Storage.get (Storage.put docs i doc) i = some doc := by
  unfold Storage.get Storage.put
  rw [List.find?_append, find?_filter_ne]
  simp [List.find?_cons, hdoc]

lemma get_put_other (docs : List Person) (i j : String) (doc : Person) (hj : j ≠ i)
    (hdoc : doc.id = i) :
    Storage.get (Storage.put docs i doc) j = Storage.get docs j := by
  unfold Storage.get Storage.put
  rw [List.find?_append, List.find?_filter]
  have hfun :
      (fun a => decide (decide (a.id ≠ i) = true ∧ decide (a.id = j) = true)) =
        (fun d : Person => decide (d.id = j)) := by
    funext a
    by_cases h : a.id = j
    · simp [h, hj]
    · simp [h]
  rw [hfun]
  have h2 : ([doc].find? (fun d => decide (d.id = j))) = none := by
    simp [List.find?_cons, hdoc, Ne.symm hj]
  rw [h2, Option.or_none]

lemma get_filter_ne (docs : List Person) (i : String) :
    Storage.get (docs.filter (fun d => decide (d.id ≠ i))) i = none :=
  find?_filter_ne docs i

/-! Helper lemmas about the name ordering. -/

lemma charListLe_trans : ∀ (x y z : List Char),
    charListLe x y = true → charListLe y z = true → charListLe x z = true
  | [], _, _, _, _ => rfl
  | _ :: _, [], _, h, _ => by simp [charListLe] at h
  | _ :: _, _ :: _, [], _, h2 => by simp [charListLe] at h2
  | a :: as, b :: bs, c :: cs, h1, h2 => by
    simp only [charListLe] at h1 h2 ⊢
    by_cases hab : a = b
    · subst hab
      by_cases hbc : a = c
      · subst hbc
        simp only [if_pos rfl] at h1 h2 ⊢
        exact charListLe_trans as bs cs h1 h2
      · simpa [hbc] using h2
    · by_cases hbc : b = c
      · subst hbc
        simpa [hab] using h1
      · rw [if_neg hab] at h1
        rw [if_neg hbc] at h2
        have hac : a < c := lt_trans (of_decide_eq_true h1) (of_decide_eq_true h2)
        simp [ne_of_lt hac, hac]

lemma charListLe_total : ∀ (x y : List Char),
    charListLe x y = true ∨ charListLe y x = true
  | [], _ => Or.inl rfl
  | _ :: _, [] => Or.inr rfl
  | a :: as, b :: bs => by
    simp only [charListLe]
    by_cases hab : a = b
    · subst hab
      simp only [if_pos rfl]
      exact charListLe_total as bs
    · rcases lt_or_gt_of_ne hab with h | h
      · left
        simp [hab, h]
      · right
        simp [Ne.symm hab, h]

instance : IsTrans Person nameRel := ⟨fun _ _ _ => charListLe_trans _ _ _⟩

instance : IsTotal Person nameRel := ⟨fun _ _ => charListLe_total _ _⟩

lemma pairwise_sortByName (l : List Person) : List.Pairwise nameRel (sortByName l) :=
  List.sorted_insertionSort nameRel l

lemma pairwise_storageFind (docs : List Person) (pred : Person → Bool) (lim off : Nat) :
    List.Pairwise nameRel (Storage.find docs pred lim off) :=
  List.Pairwise.sublist
    ((List.take_sublist _ _).trans (List.drop_sublist _ _))
    (pairwise_sortByName _)

lemma strContains_nil (hay : List Char) : strContains hay [] = true := by
  cases hay <;> simp [strContains, List.isPrefixOf]

/-! Case lemmas for the repository operations. -/

lemma update_of_getById {s : Store} {i : String} {ex : Person}
    (hex : getById s i = some ex) (now : Nat) (input : PersonInput) :
    update s i now input =
      some (mergeDoc ex input now, ⟨Storage.put s.docs i (mergeDoc ex input now)⟩) := by
  unfold update
  rw [hex]

lemma update_of_getById_none {s : Store} {i : String}
    (hex : getById s i = none) (now : Nat) (input : PersonInput) :
    update s i now input = none := by
  unfold update
  rw [hex]

lemma getByName_mem {s : Store} {n : String} {ex : Person}
    (h : getByName s n = some ex) : ex ∈ s.docs :=
  List.mem_of_find?_eq_some h

lemma getByName_normalized {s : Store} {n : String} {ex : Person}
    (h : getByName s n = some ex) : ex.normalizedName = normalizeName n := by
  unfold getByName at h
  simpa using List.find?_some h

lemma getById_id {s : Store} {i : String} {ex : Person}
    (h : getById s i = some ex) : ex.id = i := by
  unfold getById Storage.get at h
  simpa using List.find?_some h

/-- Sample person Bob, used for the update evaluation below. -/
def bobP : Person := ⟨"id_bob", "Bob", "bob", some "colleague", none, 4, 4⟩

/-- Sample store holding only Bob. -/
def bobStore : Store := ⟨[bobP]⟩

/-- C8: create sets createdAt equal to updatedAt (both to now) and uses the
supplied fresh id, a subsequent getById on the new id returns exactly the
record create returned, and no name-collision check is performed: creating
a name whose normalization is already stored yields a second record with
the same normalized name. -/
theorem create_then_getById :
    (∀ (s : Store) (freshId : String) (now : Nat) (input : CreateInput),
      (create s freshId now input).1.createdAt = now ∧
      (create s freshId now input).1.updatedAt = now ∧
      (create s freshId now input).1.id = freshId ∧
      getById (create s freshId now input).2 freshId = some (create s freshId now input).1) ∧
    ((create marStore "id_m2" 9 ⟨"MARIA", none, none⟩).2.docs.filter
        (fun d => decide (d.normalizedName = "maria"))).length = 2 := by
  constructor
  · intro s freshId now input
    exact ⟨rfl, rfl, rfl, get_put_same s.docs freshId _ rfl⟩
  · decide

/-- C7: a successful update preserves the stored record's id and createdAt,
refreshes updatedAt to now, stores the result under the same id, and leaves
the lookup of every other id unchanged, so no record's id is ever
reassigned. -/
theorem update_preserves_identity (s : Store) (i : String) (now : Nat)
    (input : PersonInput) (p : Person) (s2 : Store)
    (h : update s i now input = some (p, s2)) :
    (∃ ex, getById s i = some ex ∧ p.id = ex.id ∧ p.createdAt = ex.createdAt) ∧
    p.id = i ∧ p.updatedAt = now ∧ getById s2 i = some p ∧
    (∀ j, j ≠ i → getById s2 j = getById s j) := by
  cases hex : getById s i with
  | none =>
    rw [update_of_getById_none hex now input] at h
    cases h
  | some ex =>
    rw [update_of_getById hex now input] at h
    rw [Option.some.injEq, Prod.mk.injEq] at h
    obtain ⟨hp, hs2⟩ := h
    subst hp
    subst hs2
    have hid0 : ex.id = i := getById_id hex
    have hpid : (mergeDoc ex input now).id = i := hid0
    refine ⟨⟨ex, hex ▸ rfl, rfl, rfl⟩, hpid, rfl, ?_, ?_⟩
    · exact get_put_same s.docs i _ hpid
    · intro j hj
      exact get_put_other s.docs i j _ hj hpid

/-- C3 fails on the code: updating a person with the empty string as name
stores the empty name but keeps the previous normalizedName, so the stored
normalizedName no longer equals the normalization of the stored name. -/
theorem update_empty_name_stale_normalizedName :
    update marStore "id_maria" 5 ⟨some "", none, none⟩ =
      some (⟨"id_maria", "", "maria", some "met at work", some mariaMeta, 1, 5⟩,
        ⟨[zoeP, markP, ⟨"id_maria", "", "maria", some "met at work", some mariaMeta, 1, 5⟩]⟩) ∧
    normalizeName "" = "" ∧ ("maria" : String) ≠ normalizeName "" := by decide

/-- C4 fails on the code on the same corner: when the provided name is the
empty string, the name is replaced (nullish coalescing) but normalizedName
is not recomputed (truthiness), while the provided description does replace
the stored one. -/
theorem update_empty_name_not_recomputed :
    update bobStore "id_bob" 8 ⟨some "", some "new notes", none⟩ =
      some (⟨"id_bob", "", "bob", some "new notes", none, 4, 8⟩,
        ⟨[⟨"id_bob", "", "bob", some "new notes", none, 4, 8⟩]⟩) ∧
    ("bob" : String) ≠ normalizeName "" := by decide

/-- C6: delete returns true exactly when a record with the id existed (and
removes it), afterwards getById is absent and a second delete returns
false; deleteByName resolves the name via getByName and then has exactly
the semantics of delete on the resolved id. -/
theorem delete_semantics (s : Store) (i n : String) (hwf : s.WF) :
    ((delete s i).1 = true ↔ ∃ d ∈ s.docs, d.id = i) ∧
    getById (delete s i).2 i = none ∧
    (delete (delete s i).2 i).1 = false ∧
    deleteByName s n =
      (match getByName s n with
       | none => (false, s)
       | some ex => delete s ex.id) := by
  refine ⟨?_, ?_, ?_, ?_⟩
  · cases hex : getById s i with
    | none =>
      unfold getById Storage.get at hex
      rw [List.find?_eq_none] at hex
      simp only [delete, getById, Storage.get, List.find?_eq_none.mpr hex]
      constructor
      · intro hfalse
        cases hfalse
      · rintro ⟨d, hd, rfl⟩
        exact absurd (by simp) (hex d hd)
    | some ex =>
      simp only [delete, hex, Storage.del]
      rw [List.any_eq_true]
      constructor
      · intro _
        unfold getById Storage.get at hex
        exact ⟨ex, List.mem_of_find?_eq_some hex, getById_id (s := s) (by exact hex)⟩
      · rintro ⟨d, hd, rfl⟩
        exact ⟨d, hd, by simp⟩
  · cases hex : getById s i with
    | none => simp only [delete, hex]
    | some ex => simp only [delete, hex, Storage.del]; exact get_filter_ne s.docs i
  · cases hex : getById s i with
    | none => simp only [delete, hex]
    | some ex =>
      have h2 : getById (⟨s.docs.filter (fun d => decide (d.id ≠ i))⟩ : Store) i = none :=
        get_filter_ne s.docs i
      simp only [delete, hex, Storage.del, h2]
  · cases hbn : getByName s n with
    | none => simp only [deleteByName, hbn]
    | some ex =>
      have hbyid : getById s ex.id = some ex := getById_of_mem hwf (getByName_mem hbn)
      simp only [deleteByName, hbn, delete, hbyid]

/-- Mark after an update giving him the name Marcus at time 12. -/
def markP2 : Person := ⟨"id_mark", "Marcus", "marcus", none, none, 2, 12⟩

/-- The sample store after that update of Mark. -/
def markStore2 : Store := ⟨[zoeP, mariaP, markP2]⟩

/-- Witness for C7 at a concrete update of Mark. -/
theorem update_preserves_identity_witness :
    (∃ ex, getById marStore "id_mark" = some ex ∧
      markP2.id = ex.id ∧ markP2.createdAt = ex.createdAt) ∧
    markP2.id = "id_mark" ∧ markP2.updatedAt = 12 ∧
    getById markStore2 "id_mark" = some markP2 ∧
    (∀ j, j ≠ "id_mark" → getById markStore2 j = getById marStore j) :=
  update_preserves_identity marStore "id_mark" 12 ⟨some "Marcus", none, none⟩
    markP2 markStore2 (by decide)

/-- Witness for C6 at a concrete deletion of Mark by id and of Zoe by a
differently-spelled name. -/
theorem delete_semantics_witness :
    ((delete marStore "id_mark").1 = true ↔ ∃ d ∈ marStore.docs, d.id = "id_mark") ∧
    getById (delete marStore "id_mark").2 "id_mark" = none ∧
    (delete (delete marStore "id_mark").2 "id_mark").1 = false ∧
    deleteByName marStore " ZOE " =
      (match getByName marStore " ZOE " with
       | none => (false, marStore)
       | some ex => delete marStore ex.id) :=
  delete_semantics marStore "id_mark" " ZOE " (by decide)

/-- C5: list with a query returns exactly the stored records whose
normalizedName contains the normalized query as a substring, sorted
ascending by the raw display name and then sliced by offset and limit; the
result is always sorted by raw name, and on the sample store the query mar
returns exactly Maria then Mark. -/
theorem list_query_semantics :
    (∀ (s : Store) (q : String) (lim off : Nat),
      list s (some q) lim off =
        ((sortByName (s.docs.filter
            (fun d => strContains d.normalizedName.data (normalizeName q).data))).drop
          off).take lim) ∧
    (∀ (s : Store) (q : Option String) (lim off : Nat),
      List.Pairwise nameRel (list s q lim off)) ∧
    (list marStore (some "mar") 50 0).map Person.name = ["Maria", "Mark"] := by
  refine ⟨?_, ?_, by decide⟩
  · intro s q lim off
    by_cases hq : q = ""
    · subst hq
      have hpat : (normalizeName "").data = [] := by decide
      have h1 : s.docs.filter (fun d => strContains d.normalizedName.data []) = s.docs :=
        List.filter_eq_self.mpr (fun a _ => strContains_nil _)
      simp [list, Storage.find, hpat, h1]
    · simp only [list, if_neg hq, Storage.find]
  · intro s q lim off
    cases q with
    | none => exact pairwise_storageFind _ _ _ _
    | some q =>
      by_cases hq : q = ""
      · subst hq
        simp only [list, if_pos rfl]
        exact pairwise_storageFind _ _ _ _
      · simp only [list, if_neg hq]
        exact pairwise_storageFind _ _ _ _

/-- C1: when no stored record's normalizedName equals the normalization of
the input name, upsert behaves identically to create with created true;
when getByName finds an existing record, upsert returns exactly the result
of update on that record's id with created false, and the returned person
keeps the existing record's id and createdAt. -/
theorem upsert_create_or_update (s : Store) (freshId : String) (now : Nat)
    (input : CreateInput) (hwf : s.WF) :
    ((∀ d ∈ s.docs, d.normalizedName ≠ normalizeName input.name) →
      upsert s freshId now input =
        some ((create s freshId now input).1, (create s freshId now input).2, true)) ∧
    (∀ ex, getByName s input.name = some ex →
      ∃ p s2, update s ex.id now (toPersonInput input) = some (p, s2) ∧
        upsert s freshId now input = some (p, s2, false) ∧
        p.id = ex.id ∧ p.createdAt = ex.createdAt) := by
  constructor
  · intro hnone
    have hbn : getByName s input.name = none := by
      unfold getByName
      rw [List.find?_eq_none]
      intro x hx
      simp only [decide_eq_true_eq]
      exact hnone x hx
    simp [upsert, hbn]
  · intro ex hex
    have hbyid : getById s ex.id = some ex := getById_of_mem hwf (getByName_mem hex)
    refine ⟨mergeDoc ex (toPersonInput input) now,
      ⟨Storage.put s.docs ex.id (mergeDoc ex (toPersonInput input) now)⟩,
      update_of_getById hbyid now (toPersonInput input), ?_, rfl, rfl⟩
    simp only [upsert, hex, update_of_getById hbyid now (toPersonInput input)]

/-- The upsert input used by the C1 witness: Maria spelled with different
case and extra whitespace. -/
def mariaIn : CreateInput := ⟨" MARIA ", some "updated desc", none⟩

/-- Witness for C1 at a concrete upsert matching the stored Maria. -/
theorem upsert_create_or_update_witness :
    ∃ p s2, update marStore mariaP.id 10 (toPersonInput mariaIn) = some (p, s2) ∧
      upsert marStore "id_fresh" 10 mariaIn = some (p, s2, false) ∧
      p.id = mariaP.id ∧ p.createdAt = mariaP.createdAt :=
  (upsert_create_or_update marStore "id_fresh" 10 mariaIn (by decide)).2 mariaP (by decide)

/-- C9: on the create path (no id supplied), a missing or blank name is
rejected with the validation error before any repository call, and the
store is returned unchanged. -/
theorem upsertTool_requires_name (s : Store) (freshId : String) (now : Nat)
    (p : UpsertParams) (hid : p.id = none)
    (hname : p.name = none ∨ ∃ v, p.name = some v ∧ strTrim v = "") :
    upsertToolExecute s freshId now p =
      some (ToolResult.error "Name is required when not updating by ID", s) := by
  have hm : nameMissing p.name = true := by
    rcases hname with h | ⟨v, hv, ht⟩
    · rw [h]; rfl
    · rw [hv]
      simp [nameMissing, ht]
  unfold upsertToolExecute
  rw [hid]
  simp [truthy, hm]

/-- Witness for C9 at a whitespace-only name with no id. -/
theorem upsertTool_requires_name_witness :
    upsertToolExecute marStore "id_f" 3 ⟨none, some "   ", none, none, none, none, none, none⟩ =
      some (ToolResult.error "Name is required when not updating by ID", marStore) :=
  upsertTool_requires_name marStore "id_f" 3 _ rfl (Or.inr ⟨"   ", rfl, by decide⟩)

/-- C10 as stated is false: with both parameters provided but the id equal
to the empty string, the get tool resolves the request by name (it returns
Maria although no stored record has the empty id), and removing the name
parameter changes the outcome, so the name was used for lookup. -/
theorem tool_lookup_precedence_cex :
    getToolExecute marStore ⟨some "", some "maria"⟩ = ToolResult.ok (personToGetData mariaP) ∧
    getById marStore "" = none ∧
    getToolExecute marStore ⟨some "", none⟩ =
      ToolResult.error "Either id or name must be provided" := by decide

/-- C10 amended: whenever a non-empty id is provided, the get tool's result
is identical with or without a name parameter, and the delete tool's store
effect and success status are exactly those of delete by that id — name
lookup happens only when the id is absent or empty. -/
theorem tool_lookup_precedence (s : Store) (i n : String) (hi : i ≠ "") :
    getToolExecute s ⟨some i, some n⟩ = getToolExecute s ⟨some i, none⟩ ∧
    (deleteToolExecute s ⟨some i, some n⟩).2 = (delete s i).2 ∧
    ((deleteToolExecute s ⟨some i, some n⟩).1.isOk = true ↔ (delete s i).1 = true) := by
  have hi' : (decide (i ≠ "")) = true := by simp [hi]
  refine ⟨?_, ?_, ?_⟩
  · cases hg : getById s i with
    | none => simp [getToolExecute, truthy, hi', hg]
    | some pers => simp [getToolExecute, truthy, hi', hg]
  · rcases hd : delete s i with ⟨b, s2⟩
    cases b <;> simp [deleteToolExecute, truthy, hi', hd]
  · rcases hd : delete s i with ⟨b, s2⟩
    cases b <;> simp [deleteToolExecute, truthy, hi', hd, ToolResult.isOk]

/-- Witness for the amended C10 at Maria's id with a conflicting name. -/
theorem tool_lookup_precedence_witness :
    getToolExecute marStore ⟨some "id_maria", some "Zoe"⟩ =
      getToolExecute marStore ⟨some "id_maria", none⟩ ∧
    (deleteToolExecute marStore ⟨some "id_maria", some "Zoe"⟩).2 =
      (delete marStore "id_maria").2 ∧
    ((deleteToolExecute marStore ⟨some "id_maria", some "Zoe"⟩).1.isOk = true ↔
      (delete marStore "id_maria").1 = true) :=
  tool_lookup_precedence marStore "id_maria" "Zoe" (by decide)

/-! Lemmas for the upsert tool's id path (claim about field-level merging). -/

lemma mergeMetadata_spec (em : Option PersonMetadata) (p : UpsertParams) :
    (mergeMetadata em p).relationship =
      (match p.relationship with
       | some v => trimOrNone v
       | none => (metaOf em).relationship) ∧
    (mergeMetadata em p).email =
      (match p.email with
       | some v => trimOrNone v
       | none => (metaOf em).email) ∧
    (mergeMetadata em p).phone =
      (match p.phone with
       | some v => trimOrNone v
       | none => (metaOf em).phone) ∧
    (mergeMetadata em p).birthday =
      (match p.birthday with
       | some v => trimOrNone v
       | none => (metaOf em).birthday) ∧
    (mergeMetadata em p).workplace =
      (match p.workplace with
       | some v => trimOrNone v
       | none => (metaOf em).workplace) ∧
    (mergeMetadata em p).extra = (metaOf em).extra := by
  unfold mergeMetadata
  cases p.relationship <;> cases p.email <;> cases p.phone <;>
    cases p.birthday <;> cases p.workplace <;>
    exact ⟨rfl, rfl, rfl, rfl, rfl, rfl⟩

/-- The field-level merge contract of the claim: an omitted field keeps the
stored value, a provided field becomes its trimmed value, or is cleared
when the trimmed value is empty. -/
def fieldMerged (req old new : Option String) : Prop :=
  (req = none → new = old) ∧
  ∀ v, req = some v → new = if strTrim v = "" then none else some (strTrim v)

lemma fieldMerged_of_apply (req old : Option String) :
    fieldMerged req old
      (match req with
       | some v => trimOrNone v
       | none => old) := by
  constructor
  · intro h
    rw [h]
  · intro v hv
    rw [hv]
    rfl

lemma fieldMerged_keep (old : Option String) : fieldMerged none old old :=
  ⟨fun _ => rfl, fun v hv => by cases hv⟩

/-- The person input the upsert tool hands to update on the id path. -/
def idPathInput (p : UpsertParams) (em : Option PersonMetadata) : PersonInput :=
  ⟨p.name.map strTrim, p.description,
   if hasMetadataFields p then some (mergeMetadata em p) else none⟩

lemma upsertTool_id_path (s : Store) (freshId : String) (now : Nat) (p : UpsertParams)
    (i : String) (ex : Person) (hid : p.id = some i) (hi : i ≠ "")
    (hex : getById s i = some ex) :
    upsertToolExecute s freshId now p =
      some (ToolResult.ok
        ⟨(mergeDoc ex (idPathInput p ex.metadata) now).id,
         (mergeDoc ex (idPathInput p ex.metadata) now).name,
         (mergeDoc ex (idPathInput p ex.metadata) now).description,
         (mergeDoc ex (idPathInput p ex.metadata) now).metadata,
         false,
         "Updated information for \"" ++ (mergeDoc ex (idPathInput p ex.metadata) now).name ++ "\""⟩,
        ⟨Storage.put s.docs i (mergeDoc ex (idPathInput p ex.metadata) now)⟩) := by
  have hi' : (decide (i ≠ "")) = true := by simp [hi]
  unfold upsertToolExecute idPathInput
  rw [hid]
  simp only [truthy, hi', Option.getD_some, Bool.not_true, Bool.false_and, Bool.false_eq_true,
    if_false, if_true, hex]
  rw [update_of_getById hex]

lemma idPath_metadata (p : UpsertParams) (ex : Person) (now : Nat) :
    (mergeDoc ex (idPathInput p ex.metadata) now).metadata =
      if hasMetadataFields p then some (mergeMetadata ex.metadata p) else ex.metadata := by
  unfold mergeDoc idPathInput
  by_cases hm : hasMetadataFields p <;> simp [hm]

/-- C2: when the upsert tool updates an existing person by id, each
recognized metadata field is merged independently — omitted fields keep
their stored value, provided fields are replaced by their trimmed value or
cleared when blank — and unrecognized extra keys are preserved. -/
theorem upsertTool_merge_by_id (s : Store) (freshId : String) (now : Nat)
    (p : UpsertParams) (i : String) (ex : Person)
    (hid : p.id = some i) (hi : i ≠ "") (hex : getById s i = some ex) :
    ∃ res s2, upsertToolExecute s freshId now p = some (ToolResult.ok res, s2) ∧
      res.created = false ∧
      fieldMerged p.relationship (metaOf ex.metadata).relationship
        (metaOf res.metadata).relationship ∧
      fieldMerged p.email (metaOf ex.metadata).email (metaOf res.metadata).email ∧
      fieldMerged p.phone (metaOf ex.metadata).phone (metaOf res.metadata).phone ∧
      fieldMerged p.birthday (metaOf ex.metadata).birthday (metaOf res.metadata).birthday ∧
      fieldMerged p.workplace (metaOf ex.metadata).workplace (metaOf res.metadata).workplace ∧
      (metaOf res.metadata).extra = (metaOf ex.metadata).extra := by
  refine ⟨_, _, upsertTool_id_path s freshId now p i ex hid hi hex, rfl, ?_⟩
  have hmd := idPath_metadata p ex now
  by_cases hm : hasMetadataFields p
  · rw [if_pos hm] at hmd
    rw [hmd]
    obtain ⟨h1, h2, h3, h4, h5, h6⟩ := mergeMetadata_spec ex.metadata p
    refine ⟨?_, ?_, ?_, ?_, ?_, ?_⟩
    · rw [show (metaOf (some (mergeMetadata ex.metadata p))) = mergeMetadata ex.metadata p from rfl,
        h1]
      exact fieldMerged_of_apply _ _
    · rw [show (metaOf (some (mergeMetadata ex.metadata p))) = mergeMetadata ex.metadata p from rfl,
        h2]
      exact fieldMerged_of_apply _ _
    · rw [show (metaOf (some (mergeMetadata ex.metadata p))) = mergeMetadata ex.metadata p from rfl,
        h3]
      exact fieldMerged_of_apply _ _
    · rw [show (metaOf (some (mergeMetadata ex.metadata p))) = mergeMetadata ex.metadata p from rfl,
        h4]
      exact fieldMerged_of_apply _ _
    · rw [show (metaOf (some (mergeMetadata ex.metadata p))) = mergeMetadata ex.metadata p from rfl,
        h5]
      exact fieldMerged_of_apply _ _
    · rw [show (metaOf (some (mergeMetadata ex.metadata p))) = mergeMetadata ex.metadata p from rfl,
        h6]
  · rw [if_neg hm] at hmd
    rw [hmd]
    have hm' : hasMetadataFields p = false := by
      exact Bool.not_eq_true _ ▸ (by simpa using hm)
    simp only [hasMetadataFields, Bool.or_eq_false_iff] at hm'
    obtain ⟨⟨⟨⟨h1, h2⟩, h3⟩, h4⟩, h5⟩ := hm'
    have e1 : p.relationship = none := Option.not_isSome_iff_eq_none.mp (by simp [h1])
    have e2 : p.email = none := Option.not_isSome_iff_eq_none.mp (by simp [h2])
    have e3 : p.phone = none := Option.not_isSome_iff_eq_none.mp (by simp [h3])
    have e4 : p.birthday = none := Option.not_isSome_iff_eq_none.mp (by simp [h4])
    have e5 : p.workplace = none := Option.not_isSome_iff_eq_none.mp (by simp [h5])
    rw [e1, e2, e3, e4, e5]
    exact ⟨fieldMerged_keep _, fieldMerged_keep _, fieldMerged_keep _,
      fieldMerged_keep _, fieldMerged_keep _, rfl⟩

/-- Witness for C2: updating Maria by id, clearing email with a blank
string, setting workplace with surrounding whitespace, and omitting the
other fields. -/
theorem upsertTool_merge_by_id_witness :
    ∃ res s2,
      upsertToolExecute marStore "id_f2" 7
          ⟨some "id_maria", none, none, none, some "  ", none, none, some " Spotify "⟩ =
        some (ToolResult.ok res, s2) ∧
      res.created = false ∧
      fieldMerged none (metaOf mariaP.metadata).relationship
        (metaOf res.metadata).relationship ∧
      fieldMerged (some "  ") (metaOf mariaP.metadata).email (metaOf res.metadata).email ∧
      fieldMerged none (metaOf mariaP.metadata).phone (metaOf res.metadata).phone ∧
      fieldMerged none (metaOf mariaP.metadata).birthday (metaOf res.metadata).birthday ∧
      fieldMerged (some " Spotify ") (metaOf mariaP.metadata).workplace
        (metaOf res.metadata).workplace ∧
      (metaOf res.metadata).extra = (metaOf mariaP.metadata).extra :=
  upsertTool_merge_by_id marStore "id_f2" 7
    ⟨some "id_maria", none, none, none, some "  ", none, none, some " Spotify "⟩
    "id_maria" mariaP rfl (by decide) (by decide)

end People
